import Mathlib

/-!
Verification development for the `spectral_painting` repository
(`src/spectral_painting/app.js`, the most complete snapshot, compiled from
`app.ts`).  The JavaScript number type is modelled by exact arithmetic:
`ℚ` for all geometry and transcription code (where only field operations and
comparisons occur) and `ℝ` for the frequency mapping (which uses `Math.log`
and `Math.pow`).  `isFinite` tests on the quotients of Cramer's rule are
modelled by the corresponding denominator being nonzero, which is exactly
when IEEE division of finite operands yields a finite result.
-/

namespace SpectralPainting

/-- Cartesian view of a point: the geometry routines of `Polygon` consume a
`Point` only through its derived `x`/`y` coordinates
(`Math.cos(angle)*radius + origin_x`, `Math.sin(angle)*radius + origin_y`),
so for them a point is just its coordinate pair. -/
structure CartesianPoint where
  x : ℚ
  y : ℚ
deriving DecidableEq, Repr

/-- Coefficients `{a, b, c}` of a line `a*x + b*y + c = 0`
(the ephemeral record built by `Polygon.line_equation` and the query lines). -/
structure Line where
  a : ℚ
  b : ℚ
  c : ℚ
deriving DecidableEq, Repr

/-- `Polygon.line_equation(point1, point2)` from `app.js` lines 87-92. -/
def line_equation (point1 point2 : CartesianPoint) : Line :=
  let a := -point1.y + point2.y
  let b := point1.x - point2.x
  ⟨a, b, -a * point1.x - b * point1.y⟩

/-- One element of the list returned by `find_weighted_intersections`:
the intersection point together with the data determining the edge's
direction angle `x_axis_angle = Math.atan2(-eq.a, eq.b)`.  The angle is
only ever consumed through its sign, so the model stores the `atan2`
arguments `(-eq.a, eq.b)` via the edge equation coefficients. -/
structure WeightedIntersection where
  point : CartesianPoint
  dir_a : ℚ
  dir_b : ℚ
deriving DecidableEq, Repr

/-- Sign test `intersection.x_axis_angle > 0` performed by the nonzero rule:
over the reals `Math.atan2(-a, b) > 0` holds exactly when `-a > 0`, or
`-a = 0` and `b < 0` (where `atan2` returns `π`). -/
def x_axis_angle_pos (w : WeightedIntersection) : Bool :=
  decide (0 < -w.dir_a ∨ (-w.dir_a = 0 ∧ w.dir_b < 0))

/-- The directed closed-polygon edges `(points[i], points[(i+1) % n])`
iterated by `find_weighted_intersections` and `lies_on_side`. -/
def cyclePairs (points : List α) : List (α × α) :=
  points.zip (points.drop 1 ++ points.take 1)

/-- The denominator `line.a * eq.b - eq.a * line.b` shared (up to sign) by
both Cramer quotients of `find_weighted_intersections`; the JavaScript
`isFinite` checks on those quotients hold exactly when it is nonzero. -/
def cramer_den (line eq : Line) : ℚ :=
  line.a * eq.b - eq.a * line.b

/-- `intersection_x = (line.b*eq.c - eq.b*line.c) / (line.a*eq.b - eq.a*line.b)`
from `app.js` line 109. -/
def cramer_x (line eq : Line) : ℚ :=
  (line.b * eq.c - eq.b * line.c) / cramer_den line eq

/-- `intersection_y = (line.a*eq.c - eq.a*line.c) / (eq.a*line.b - line.a*eq.b)`
from `app.js` line 110. -/
def cramer_y (line eq : Line) : ℚ :=
  (line.a * eq.c - eq.a * line.c) / (eq.a * line.b - line.a * eq.b)

/-- Body of the loop of `Polygon.find_weighted_intersections`
(`app.js` lines 103-115): Cramer's rule for the edge/query-line system,
acceptance when the intersection's x lies in the edge's x-span (inclusive)
and both quotients are finite, i.e. (in exact arithmetic) the shared
Cramer denominator is nonzero. -/
def edge_intersection (line : Line) (edge : CartesianPoint × CartesianPoint) :
    Option WeightedIntersection :=
  let eq := line_equation edge.1 edge.2
  if min edge.1.x edge.2.x ≤ cramer_x line eq
      ∧ cramer_x line eq ≤ max edge.1.x edge.2.x
      ∧ cramer_den line eq ≠ 0 then
    some ⟨⟨cramer_x line eq, cramer_y line eq⟩, eq.a, eq.b⟩
  else none

/-- `Polygon.find_weighted_intersections(line)` (`app.js` lines 101-117).
The polygon is its ordered point list; accepted intersections are appended
in edge order. -/
def find_weighted_intersections (points : List CartesianPoint) (line : Line) :
    List WeightedIntersection :=
  (cyclePairs points).filterMap (edge_intersection line)

/-- `Polygon.find_intersections(line)` (`app.js` lines 118-125):
the unweighted projection. -/
def find_intersections (points : List CartesianPoint) (line : Line) :
    List CartesianPoint :=
  (find_weighted_intersections points line).map (fun w => w.point)

/-- The two fill rules accepted by `Polygon.is_inside` (the TypeScript
parameter type is the union `"evenodd" | "nonzero"`; any other string hits
the `throw new Error("Not implemented")` default branch). -/
inductive FillRule
  | evenodd
  | nonzero
deriving DecidableEq, Repr

/-- The winding sum accumulated by the `"nonzero"` branch of
`Polygon.is_inside` (`app.js` lines 137-146): over the weighted
intersections with the horizontal line `{a: 0, b: 1, c: -point.y}`, add
`+1` or `-1` (by the sign of `x_axis_angle`) for those with
`intersection.point.x >= point.x`. -/
def winding_number (points : List CartesianPoint) (point : CartesianPoint) : ℤ :=
  (find_weighted_intersections points ⟨0, 1, -point.y⟩).foldl
    (fun acc w =>
      if point.x ≤ w.point.x then acc + (if x_axis_angle_pos w then 1 else -1)
      else acc)
    0

/-- `Polygon.is_inside(point, rule)` (`app.js` lines 126-150). -/
def is_inside (points : List CartesianPoint) (point : CartesianPoint)
    (rule : FillRule) : Bool :=
  match rule with
  | .evenodd =>
    let intersections := find_intersections points ⟨1, 0, -point.x⟩
    let count := intersections.foldl
      (fun acc q => if q.y < point.y then acc + 1 else acc) (0 : ℕ)
    decide (count % 2 ≠ 0)
  | .nonzero =>
    decide (winding_number points point ≠ 0)

/-- Modelled from the spec's words for claim C4 (refinement counterpart of
`winding_number`): "sum `+1`/`-1` per intersection with `x ≥ point.x`, sign
determined by the edge's direction angle sign". -/
def spec_winding_sum (points : List CartesianPoint) (point : CartesianPoint) : ℤ :=
  (((find_weighted_intersections points ⟨0, 1, -point.y⟩).filter
      (fun w => decide (point.x ≤ w.point.x))).map
    (fun w => if x_axis_angle_pos w then (1 : ℤ) else -1)).sum

theorem foldl_winding_eq_sum (point : CartesianPoint)
    (l : List WeightedIntersection) (acc : ℤ) :
    l.foldl
      (fun acc w =>
        if point.x ≤ w.point.x then acc + (if x_axis_angle_pos w then 1 else -1)
        else acc)
      acc
      = acc + ((l.filter (fun w => decide (point.x ≤ w.point.x))).map
          (fun w => if x_axis_angle_pos w then (1 : ℤ) else -1)).sum := by
  induction l generalizing acc with
  | nil => simp
  | cons w l ih =>
    by_cases h : point.x ≤ w.point.x
    · simp [List.foldl_cons, List.filter_cons, h, ih]
      ring
    · simp [List.foldl_cons, List.filter_cons, h, ih]

/-- Claim C4: for every polygon and every query point, `is_inside` under the
`"nonzero"` rule casts the horizontal ray `{a: 0, b: 1, c: -point.y}`, sums
`+1` for each weighted intersection with `x ≥ point.x` whose edge direction
angle is positive and `-1` otherwise, and returns true exactly when this
winding sum is nonzero. -/
theorem is_inside_nonzero_iff_winding (points : List CartesianPoint)
    (point : CartesianPoint) :
    is_inside points point .nonzero = true ↔ spec_winding_sum points point ≠ 0 := by
  have h : winding_number points point = spec_winding_sum points point := by
    unfold winding_number spec_winding_sum
    simpa using foldl_winding_eq_sum point
      (find_weighted_intersections points ⟨0, 1, -point.y⟩) 0
  simp [is_inside, h]

theorem edge_intersection_eq_some (line : Line)
    (edge : CartesianPoint × CartesianPoint) (w : WeightedIntersection) :
    edge_intersection line edge = some w ↔
      (min edge.1.x edge.2.x ≤ cramer_x line (line_equation edge.1 edge.2)
        ∧ cramer_x line (line_equation edge.1 edge.2) ≤ max edge.1.x edge.2.x
        ∧ cramer_den line (line_equation edge.1 edge.2) ≠ 0) ∧
      w = ⟨⟨cramer_x line (line_equation edge.1 edge.2),
            cramer_y line (line_equation edge.1 edge.2)⟩,
          (line_equation edge.1 edge.2).a, (line_equation edge.1 edge.2).b⟩ := by
  unfold edge_intersection
  dsimp only
  split_ifs with h
  · simp only [Option.some.injEq]
    constructor
    · intro hw
      exact ⟨h, hw.symm⟩
    · intro hw
      exact hw.2.symm
  · simp only [false_iff, not_and]
    intro hcond
    exact absurd hcond h

/-- Claim C5: `find_weighted_intersections` contains an element exactly when
some polygon edge produces it with the Cramer intersection inside the edge's
x-span (inclusive) and a nonzero Cramer denominator (the exact-arithmetic
rendering of "both coordinates are finite"); parallel or coincident edges
(denominator zero) are silently skipped, so every returned coordinate is a
finite quotient with nonzero denominator. -/
theorem mem_find_weighted_intersections (points : List CartesianPoint)
    (line : Line) (w : WeightedIntersection) :
    w ∈ find_weighted_intersections points line ↔
      ∃ edge ∈ cyclePairs points,
        (min edge.1.x edge.2.x ≤ cramer_x line (line_equation edge.1 edge.2)
          ∧ cramer_x line (line_equation edge.1 edge.2) ≤ max edge.1.x edge.2.x
          ∧ cramer_den line (line_equation edge.1 edge.2) ≠ 0) ∧
        w = ⟨⟨cramer_x line (line_equation edge.1 edge.2),
              cramer_y line (line_equation edge.1 edge.2)⟩,
            (line_equation edge.1 edge.2).a, (line_equation edge.1 edge.2).b⟩ := by
  unfold find_weighted_intersections
  rw [List.mem_filterMap]
  constructor
  · rintro ⟨edge, hmem, hsome⟩
    exact ⟨edge, hmem, (edge_intersection_eq_some line edge w).mp hsome⟩
  · rintro ⟨edge, hmem, hcond⟩
    exact ⟨edge, hmem, (edge_intersection_eq_some line edge w).mpr hcond⟩

/-- The stored state of a `Point` (`app.js` lines 42-74): polar angle,
radius, and the shared origin.  `from_polar` copies these four numbers
verbatim; the derived Cartesian `x`/`y` are not needed by the ordering,
insertion and serialization code modelled below. -/
structure Point where
  angle : ℚ
  radius : ℚ
  origin_x : ℚ
  origin_y : ℚ
deriving DecidableEq, Repr

/-- `Polygon.find_insert_index(point)` (`app.js` lines 93-100): linear scan
for the first stored point whose angle strictly exceeds the new point's
angle, returning the list length if there is none. -/
def find_insert_index (point : Point) : List Point → ℕ
  | [] => 0
  | q :: rest => if point.angle < q.angle then 0 else 1 + find_insert_index point rest

/-- `Polygon.insert(point)` (`app.js` lines 165-167):
`splice(find_insert_index(point), 0, point)`. -/
def insert (points : List Point) (point : Point) : List Point :=
  points.insertIdx (find_insert_index point points) point

/-- The ascending-angle ordering of a polygon's point sequence. -/
def AngleSorted (points : List Point) : Prop :=
  List.Sorted (fun p q : Point => p.angle ≤ q.angle) points

instance : DecidablePred AngleSorted := fun points =>
  List.instDecidablePairwise points

theorem find_insert_index_eq_findIdx (point : Point) (points : List Point) :
    find_insert_index point points
      = points.findIdx (fun q => decide (point.angle < q.angle)) := by
  induction points with
  | nil => rfl
  | cons q rest ih =>
    by_cases h : point.angle < q.angle
    · simp [find_insert_index, h, List.findIdx_cons]
    · simp [find_insert_index, h, List.findIdx_cons, ih, Nat.add_comm]

theorem find_insert_index_le_length (point : Point) (points : List Point) :
    find_insert_index point points ≤ points.length := by
  induction points with
  | nil => exact Nat.le_refl 0
  | cons q rest ih =>
    by_cases h : point.angle < q.angle
    · simp [find_insert_index, h]
    · simpa [find_insert_index, h, Nat.add_comm] using Nat.succ_le_succ ih

theorem find_insert_index_of_none (point : Point) (points : List Point)
    (h : ∀ q ∈ points, ¬ point.angle < q.angle) :
    find_insert_index point points = points.length := by
  induction points with
  | nil => rfl
  | cons q rest ih =>
    have hq : ¬ point.angle < q.angle := h q (List.mem_cons_self q rest)
    simp only [find_insert_index, hq, if_false, List.length_cons]
    rw [ih (fun r hr => h r (List.mem_cons_of_mem q hr))]
    exact Nat.add_comm 1 rest.length

/-- Claim C7: on an ascending-angle polygon, `insert` places the new point
immediately before the first stored point with strictly larger angle (at the
end if there is none, so equal-angle ties keep insertion order), and the
resulting sequence is again in ascending-angle order. -/
theorem insert_preserves_angle_sorted (points : List Point) (point : Point)
    (h : AngleSorted points) :
    insert points point
        = points.insertIdx
            (points.findIdx (fun q => decide (point.angle < q.angle))) point
      ∧ AngleSorted (insert points point) := by
  constructor
  · unfold insert
    rw [find_insert_index_eq_findIdx]
  · unfold insert AngleSorted
    induction points with
    | nil => simp [find_insert_index]
    | cons q rest ih =>
      by_cases hq : point.angle < q.angle
      · simp only [find_insert_index, hq, if_true, List.insertIdx_zero]
        refine List.Pairwise.cons ?_ h
        intro r hr
        rcases List.mem_cons.mp hr with h1 | h2
        · exact h1 ▸ le_of_lt hq
        · exact le_of_lt (lt_of_lt_of_le hq
            ((List.pairwise_cons.mp h).1 r h2))
      · have hrest : List.Sorted (fun p q : Point => p.angle ≤ q.angle) rest :=
          (List.pairwise_cons.mp h).2
        simp only [find_insert_index, hq, if_false, Nat.add_comm 1,
          List.insertIdx_succ_cons]
        refine List.pairwise_cons.mpr ⟨?_, ih hrest⟩
        intro r hr
        have hmem := (List.mem_insertIdx
          (find_insert_index_le_length point rest)).mp hr
        rcases hmem with h1 | h2
        · exact h1 ▸ le_of_not_lt hq
        · exact (List.pairwise_cons.mp h).1 r h2

theorem insert_preserves_angle_sorted_witness :
    AngleSorted [Point.mk 0 1 0 0, Point.mk 1 2 0 0]
      ∧ (insert [Point.mk 0 1 0 0, Point.mk 1 2 0 0] (Point.mk (1/2) 3 0 0)
          = ([Point.mk 0 1 0 0, Point.mk 1 2 0 0]).insertIdx
              (([Point.mk 0 1 0 0, Point.mk 1 2 0 0]).findIdx
                (fun q => decide ((Point.mk (1/2) 3 0 0).angle < q.angle)))
              (Point.mk (1/2) 3 0 0)
        ∧ AngleSorted (insert [Point.mk 0 1 0 0, Point.mk 1 2 0 0]
            (Point.mk (1/2) 3 0 0))) :=
  ⟨by decide,
    insert_preserves_angle_sorted [Point.mk 0 1 0 0, Point.mk 1 2 0 0]
      (Point.mk (1/2) 3 0 0) (by decide)⟩

/-- One element of the serialized JSON array
`{a: point.angle, r: point.radius, x: point.origin_x, y: point.origin_y}`
(`Director.serialize`, `app.js` lines 802-811). -/
structure PointRecord where
  a : ℚ
  r : ℚ
  x : ℚ
  y : ℚ
deriving DecidableEq, Repr

/-- The record built for one point by `Director.serialize`. -/
def point_to_record (point : Point) : PointRecord :=
  ⟨point.angle, point.radius, point.origin_x, point.origin_y⟩

/-- `Point.from_polar(data.a, data.r, data.x, data.y)` as called by
`Director.deserialize` (`app.js` line 817). -/
def from_polar (data : PointRecord) : Point :=
  ⟨data.a, data.r, data.x, data.y⟩

/-- `Director.serialize` (`app.js` lines 802-811): map the point list to
records, then `btoa(JSON.stringify(...))`.  The platform codec
`btoa ∘ JSON.stringify` is abstracted as `encode` into an arbitrary wire
type. -/
def serialize (encode : List PointRecord → α) (points : List Point) : α :=
  encode (points.map point_to_record)

/-- The polygon built by `Director.deserialize` (`app.js` lines 814-819):
a fresh polygon receiving `insert` for each parsed record in order. -/
def build_polygon (records : List PointRecord) : List Point :=
  records.foldl (fun polygon data => insert polygon (from_polar data)) []

/-- `Director.deserialize` (`app.js` lines 812-821) up to the platform codec:
`JSON.parse ∘ atob` is abstracted as `decode`, which returns `none` when
`JSON.parse` would throw. -/
def deserialize (decode : α → Option (List PointRecord)) (data : α) :
    Option (List Point) :=
  (decode data).map build_polygon

theorem insertIdx_perm (a : α) :
    ∀ (n : ℕ) (l : List α), n ≤ l.length → (l.insertIdx n a).Perm (a :: l)
  | 0, l, _ => by simp [List.insertIdx_zero]
  | n + 1, [], h => absurd h (by simp)
  | n + 1, x :: xs, h => by
    rw [List.insertIdx_succ_cons]
    exact ((insertIdx_perm a n xs (Nat.le_of_succ_le_succ h)).cons x).trans
      (List.Perm.swap a x xs)

theorem insert_perm (points : List Point) (point : Point) :
    (insert points point).Perm (point :: points) :=
  insertIdx_perm point (find_insert_index point points) points
    (find_insert_index_le_length point points)

theorem foldl_insert_perm {β : Type} (f : β → Point) (records : List β) :
    ∀ acc : List Point,
      (records.foldl (fun polygon data => insert polygon (f data)) acc).Perm
        (acc ++ records.map f) := by
  induction records with
  | nil => intro acc; simp
  | cons data rest ih =>
    intro acc
    have h1 : (rest.foldl (fun polygon d => insert polygon (f d))
          (insert acc (f data))).Perm
        (insert acc (f data) ++ rest.map f) := ih _
    have h2 : (insert acc (f data) ++ rest.map f).Perm
        ((f data :: acc) ++ rest.map f) :=
      (insert_perm acc (f data)).append_right _
    have h3 : ((f data :: acc) ++ rest.map f).Perm
        (acc ++ f data :: rest.map f) := List.perm_middle.symm
    simpa using (h1.trans h2).trans h3

theorem insert_of_upper_bound (points : List Point) (point : Point)
    (h : ∀ q ∈ points, ¬ point.angle < q.angle) :
    insert points point = points ++ [point] := by
  unfold insert
  rw [find_insert_index_of_none point points h]
  exact List.insertIdx_length_self points point

theorem foldl_insert_of_sorted :
    ∀ (points acc : List Point),
      AngleSorted (acc ++ points) →
      points.foldl (fun polygon p => insert polygon p) acc = acc ++ points := by
  intro points
  induction points with
  | nil => intro acc _; simp
  | cons p rest ih =>
    intro acc hsorted
    have hacc : ∀ q ∈ acc, q.angle ≤ p.angle := by
      intro q hq
      exact (List.pairwise_append.mp hsorted).2.2 q hq p (List.mem_cons_self p rest)
    have hstep : insert acc p = acc ++ [p] :=
      insert_of_upper_bound acc p (fun q hq => not_lt_of_le (hacc q hq))
    have hsorted2 : AngleSorted ((acc ++ [p]) ++ rest) := by
      simpa [List.append_assoc] using hsorted
    calc rest.foldl (fun polygon q => insert polygon q) (insert acc p)
        = rest.foldl (fun polygon q => insert polygon q) (acc ++ [p]) := by rw [hstep]
      _ = (acc ++ [p]) ++ rest := ih (acc ++ [p]) hsorted2
      _ = acc ++ p :: rest := by simp

/-- Claim C8: serializing a polygon's point list (records `{a, r, x, y}`,
JSON + base64 abstracted as an invertible codec) and deserializing again
yields a polygon whose points are a permutation of the original (same
multiset of angle/radius/origin tuples, since deserialization re-inserts
every record), and which equals the original sequence whenever the original
was in ascending-angle order. -/
theorem serialize_deserialize_round_trip {α : Type}
    (encode : List PointRecord → α) (decode : α → Option (List PointRecord))
    (points : List Point)
    (hcodec : ∀ l, decode (encode l) = some l) :
    deserialize decode (serialize encode points)
        = some (build_polygon (points.map point_to_record))
      ∧ (build_polygon (points.map point_to_record)).Perm points
      ∧ (AngleSorted points → build_polygon (points.map point_to_record) = points) := by
  have hfold : build_polygon (points.map point_to_record)
      = points.foldl (fun polygon p => insert polygon p) [] := by
    unfold build_polygon
    rw [List.foldl_map]
    rfl
  refine ⟨?_, ?_, ?_⟩
  · unfold deserialize serialize
    rw [hcodec]
    rfl
  · rw [hfold]
    simpa using foldl_insert_perm (fun p : Point => p) points []
  · intro hsorted
    rw [hfold]
    simpa using foldl_insert_of_sorted points [] (by simpa using hsorted)

theorem serialize_deserialize_round_trip_witness :
    (∀ l : List PointRecord, some (id l) = some l)
      ∧ (deserialize some
            (serialize id [Point.mk 0 1 0 0, Point.mk 1 2 0 0])
          = some (build_polygon
              (([Point.mk 0 1 0 0, Point.mk 1 2 0 0]).map point_to_record))
        ∧ (build_polygon
            (([Point.mk 0 1 0 0, Point.mk 1 2 0 0]).map point_to_record)).Perm
            [Point.mk 0 1 0 0, Point.mk 1 2 0 0]
        ∧ (AngleSorted [Point.mk 0 1 0 0, Point.mk 1 2 0 0] →
            build_polygon
                (([Point.mk 0 1 0 0, Point.mk 1 2 0 0]).map point_to_record)
              = [Point.mk 0 1 0 0, Point.mk 1 2 0 0])) :=
  ⟨fun _ => rfl,
    serialize_deserialize_round_trip id some
      [Point.mk 0 1 0 0, Point.mk 1 2 0 0] (fun _ => rfl)⟩

/-- The part of the `Director` state that `deserialize` may mutate:
`this._shape`. -/
structure DirectorState where
  shape : List Point
deriving DecidableEq, Repr

/-- The uncaught exception thrown by `JSON.parse` on malformed input. -/
inductive DeserializeError
  | parse
deriving DecidableEq, Repr

/-- `Director.deserialize(data)` (`app.js` lines 812-821) as a state
transformer.  `atob` and `JSON.parse` are the platform decoding stages;
`parse` returns `none` exactly when `JSON.parse` throws.  In the source the
only mutation of `this` is the final statement `this._shape = polygon`, so a
parse failure propagates as an exception before any mutation. -/
def director_deserialize (atob : String → String)
    (parse : String → Option (List PointRecord))
    (st : DirectorState) (data : String) :
    Except DeserializeError DirectorState :=
  let json := atob data
  match parse json with
  | none => .error .parse
  | some records => .ok { st with shape := build_polygon records }

/-- The shape the `Director` holds after a `deserialize` call, as seen by a
caller that lets the exception propagate: on `.error` no mutation has
happened (the assignment is the last statement of the method), so the
previously held shape persists. -/
def director_shape_after_deserialize (atob : String → String)
    (parse : String → Option (List PointRecord))
    (st : DirectorState) (data : String) : List Point :=
  match director_deserialize atob parse st data with
  | .ok st2 => st2.shape
  | .error _ => st.shape

/-- Claim C10: for every input whose base64-decoded text is not valid JSON
(`parse` fails), `Director.deserialize` propagates the parse error uncaught
to the caller, and the previously held shape is unchanged, since the new
polygon is assigned only after parsing and insertion succeed. -/
theorem deserialize_parse_error (atob : String → String)
    (parse : String → Option (List PointRecord))
    (st : DirectorState) (data : String)
    (h : parse (atob data) = none) :
    director_deserialize atob parse st data = .error .parse
      ∧ director_shape_after_deserialize atob parse st data = st.shape := by
  have herr : director_deserialize atob parse st data = .error .parse := by
    unfold director_deserialize
    dsimp only
    rw [h]
  exact ⟨herr, by unfold director_shape_after_deserialize; rw [herr]⟩

theorem deserialize_parse_error_witness :
    (fun _ : String => (none : Option (List PointRecord))) (id "") = none
      ∧ (director_deserialize id (fun _ => none) (DirectorState.mk []) ""
          = .error .parse
        ∧ director_shape_after_deserialize id (fun _ => none)
            (DirectorState.mk []) "" = (DirectorState.mk []).shape) :=
  ⟨rfl, deserialize_parse_error id (fun _ => none) (DirectorState.mk []) "" rfl⟩

/-- The settings consumed by the frequency mapping
(`this._settings.frequency_range` and `this._settings.box` in
`Director.normalize_linear` / `normalize_exponential`).  These two methods
use `Math.log` and `Math.pow`, so they are modelled over `ℝ`. -/
structure FrequencySettings where
  low : ℝ
  high : ℝ
  box_y : ℝ
  box_height : ℝ

/-- `Director.normalize_linear(value)` (`app.js` lines 735-739):
`bias = log(low)/log(high)`, `ratio = (value - box.y)/box.height`,
result `high ^ ((1 - ratio)*(1 - bias) + bias)`. -/
noncomputable def normalize_linear (s : FrequencySettings) (value : ℝ) : ℝ :=
  let bias := Real.log s.low / Real.log s.high;
  let ratio := (value - s.box_y) / s.box_height;
  s.high ^ ((1 - ratio) * (1 - bias) + bias)

/-- `Director.normalize_exponential(value)` (`app.js` lines 740-745):
`bias = log(low)/log(high)`, `power = log(value)/log(high)`,
result `-(power - bias)/(1 - bias) + 1` (this snapshot returns the bare
ratio, without rescaling by the box). -/
noncomputable def normalize_exponential (s : FrequencySettings) (value : ℝ) : ℝ :=
  let bias := Real.log s.low / Real.log s.high;
  let power := Real.log value / Real.log s.high;
  -(power - bias) / (1 - bias) + 1

/-- `normalize_linear` is a power of the positive base `high`, hence
positive: the real function abstracted as `nl` in the transcriber never
produces the sentinel `-1`. -/
theorem normalize_linear_pos (s : FrequencySettings) (value : ℝ)
    (h : 0 < s.high) : 0 < normalize_linear s value :=
  Real.rpow_pos_of_pos h _

/-- Claim C6: for every `value` and every frequency range with
`1 < low < high`, `normalize_exponential (normalize_linear value)` equals
`(value - box.y)/box.height` exactly over the reals: the two mappings are
inverse up to the ratio normalization. -/
theorem normalize_exponential_normalize_linear (s : FrequencySettings)
    (value : ℝ) (hlow : 1 < s.low) (hhigh : s.low < s.high) :
    normalize_exponential s (normalize_linear s value)
      = (value - s.box_y) / s.box_height := by
  have hhigh1 : 1 < s.high := lt_trans hlow hhigh
  have hhpos : 0 < s.high := lt_trans one_pos hhigh1
  have hHpos : 0 < Real.log s.high := Real.log_pos hhigh1
  have hlt : Real.log s.low < Real.log s.high :=
    Real.log_lt_log (lt_trans one_pos hlow) hhigh
  have hbias : Real.log s.low / Real.log s.high < 1 :=
    (div_lt_one hHpos).mpr hlt
  have hb : 1 - Real.log s.low / Real.log s.high ≠ 0 :=
    ne_of_gt (by linarith)
  have hH : Real.log s.high ≠ 0 := ne_of_gt hHpos
  unfold normalize_exponential normalize_linear
  dsimp only
  rw [Real.log_rpow hhpos, mul_div_cancel_right₀ _ hH]
  set b := Real.log s.low / Real.log s.high with hbdef
  set r := (value - s.box_y) / s.box_height with hrdef
  have h4 : (1 - r) * (1 - b) + b - b = (1 - r) * (1 - b) := by ring
  rw [h4, neg_div, mul_div_cancel_right₀ _ hb]
  ring

theorem normalize_exponential_normalize_linear_witness :
    (1 : ℝ) < 65
      ∧ (65 : ℝ) < 20000
      ∧ normalize_exponential (FrequencySettings.mk 65 20000 100 500)
          (normalize_linear (FrequencySettings.mk 65 20000 100 500) 250)
        = (250 - 100) / 500 :=
  ⟨by norm_num, by norm_num,
    normalize_exponential_normalize_linear
      (FrequencySettings.mk 65 20000 100 500) 250 (by norm_num) (by norm_num)⟩

/-- The stable comparator-sort relation of `app.js` lines 501-511: the JS
comparator returns `1` when `a.y < b.y`, `-1` when `a.y > b.y` and `0`
otherwise, so the (stable, per ES2019) sort keeps `a` before `b` exactly
when `b.y ≤ a.y` — descending `y`. -/
def y_desc_rel (a b : CartesianPoint) : Prop :=
  b.y ≤ a.y

instance : DecidableRel y_desc_rel := fun a b =>
  (inferInstance : Decidable (b.y ≤ a.y))

/-- The per-sample intersection list of `transcribe_user_shape`
(`app.js` lines 500-511): intersections of the polygon with the vertical
sweep line `{a: 1, b: 0, c: -caret_position}`, sorted by the descending-`y`
comparator.  A stable sort under a total preorder has a unique output, so
the unspecified (but stable) `Array.prototype.sort` is modelled by stable
insertion sort. -/
def sorted_intersections (shape : List CartesianPoint) (caret_position : ℚ) :
    List CartesianPoint :=
  List.insertionSort y_desc_rel (find_intersections shape ⟨1, 0, -caret_position⟩)

/-- The midpoint of a consecutive intersection pair (`app.js` line 516).
The source rebuilds it through `Point.from_cartesian(mx, my, origin)` and
immediately reads back `.x`/`.y`, which over the reals round-trips to
exactly `(mx, my)` (the origin does not affect the derived coordinates). -/
def mid_point (point1 point2 : CartesianPoint) : CartesianPoint :=
  ⟨(point1.x + point2.x) / 2, (point1.y + point2.y) / 2⟩

/-- Processing of one consecutive intersection pair (`app.js` lines
513-517): the pair contributes a band (its two `normalize_linear` values,
`lower_point` from `intersections[index]` and `upper_point` from
`intersections[index + 1]`) exactly when the midpoint passes the
`"nonzero"` inside test.  `nl` stands for `Director.normalize_linear`,
which is transcendental and is therefore abstracted as a function
parameter. -/
def band_of (shape : List CartesianPoint) (nl : ℚ → ℚ)
    (pair : CartesianPoint × CartesianPoint) : Option (ℚ × ℚ) :=
  if is_inside shape (mid_point pair.1 pair.2) .nonzero then
    some (nl pair.1.y, nl pair.2.y)
  else none

/-- The consecutive pairs `(intersections[index], intersections[index+1])`
for `index = 0 .. length - 2` walked by the inner loop. -/
def consecutive_pairs (l : List α) : List (α × α) :=
  l.zip l.tail

/-- The bands discovered at one time sample, in index order: consecutive
pairs of the descending-`y`-sorted intersections that pass the midpoint
inside test. -/
def sample_bands (shape : List CartesianPoint) (nl : ℚ → ℚ)
    (caret_position : ℚ) : List (ℚ × ℚ) :=
  (consecutive_pairs (sorted_intersections shape caret_position)).filterMap
    (band_of shape nl)

/-- The settings consumed by the transcription loop:
`this._director.settings.rate` and the box fields used by
`get_caret_position`. -/
structure TranscribeSettings where
  rate : ℚ
  box_x : ℚ
  box_width : ℚ
deriving DecidableEq, Repr

/-- `Director.get_caret_position(time)` (`app.js` lines 729-734), the
explicit-time overload: `(time / rate) * box.width + box.x`. -/
def get_caret_position (cfg : TranscribeSettings) (time : ℚ) : ℚ :=
  time / cfg.rate * cfg.box_width + cfg.box_x

/-- Number of iterations of the time loop
`for (time_stamp = 0; time_stamp <= rate; time_stamp += 0.01)` with the
step modelled exactly as `1/100`: samples `k/100` for
`0 ≤ k ≤ ⌊100·rate⌋` when `rate ≥ 0`, none otherwise. -/
def num_samples (rate : ℚ) : ℕ :=
  if 0 ≤ rate then (⌊rate / (1 / 100)⌋).toNat + 1 else 0

/-- The exact time grid of the transcription loop. -/
def time_samples (rate : ℚ) : List ℚ :=
  (List.range (num_samples rate)).map (fun k => (k : ℚ) * (1 / 100))

/-- The mutable state of one `transcribe_user_shape` run (`app.js` lines
492-497) together with the filter bank size `this._filters.length`, which
the transcription grows through `add_filters` and reads in its stop
conditions.  `render()` resets `this._filters = []` right before
transcribing, so a run starts with `filters = 0`. -/
structure TranscribeState where
  lower_frequencies : List (List ℚ)
  upper_frequencies : List (List ℚ)
  activated : List (List Bool)
  last_nonzero_lower : List ℚ
  last_nonzero_upper : List ℚ
  filters : ℕ
  counter : ℕ
deriving DecidableEq, Repr

/-- The state at the top of `transcribe_user_shape` in a Fill render pass:
empty curve arrays, empty `last_nonzero` arrays, freshly cleared voice
list, `counter = 0`. -/
def initial_state : TranscribeState :=
  ⟨[], [], [], [], [], 0, 0⟩

/-- `rows[index].push(value)`: append `value` to the row at `index`.
All call sites keep `index` within range. -/
def appendAt : List (List α) → ℕ → α → List (List α)
  | [], _, _ => []
  | row :: rows, 0, v => (row ++ [v]) :: rows
  | row :: rows, n + 1, v => row :: appendAt rows n v

/-- `array[index] = value` on a flat array.  All call sites keep `index`
within range. -/
def setAt : List ℚ → ℕ → ℚ → List ℚ
  | [], _, _ => []
  | _ :: rest, 0, v => v :: rest
  | x :: rest, n + 1, v => x :: setAt rest n v

/-- The body of the inside-branch of the pair loop (`app.js` lines
517-540): filter count compensation (new rows backfilled with `counter`
sentinels, `last_nonzero` entries seeded with `0`, `add_filters`), then the
pushes of the band's `lower_point`/`upper_point`/`true` and the
`last_nonzero` updates for the current `filter_index`. -/
def apply_band (st : TranscribeState) (filter_index : ℕ) (band : ℚ × ℚ) :
    TranscribeState :=
  let st1 :=
    if st.filters ≤ filter_index then
      let compensation := filter_index - st.filters + 1;
      { st with
        lower_frequencies := st.lower_frequencies
          ++ List.replicate compensation (List.replicate st.counter (-1 : ℚ)),
        upper_frequencies := st.upper_frequencies
          ++ List.replicate compensation (List.replicate st.counter (-1 : ℚ)),
        activated := st.activated
          ++ List.replicate compensation (List.replicate st.counter false),
        last_nonzero_lower := st.last_nonzero_lower
          ++ List.replicate compensation 0,
        last_nonzero_upper := st.last_nonzero_upper
          ++ List.replicate compensation 0,
        filters := st.filters + compensation }
    else st;
  { st1 with
    last_nonzero_lower := setAt st1.last_nonzero_lower filter_index band.1,
    last_nonzero_upper := setAt st1.last_nonzero_upper filter_index band.2,
    lower_frequencies := appendAt st1.lower_frequencies filter_index band.1,
    upper_frequencies := appendAt st1.upper_frequencies filter_index band.2,
    activated := appendAt st1.activated filter_index true }

/-- The iterations of the trailing
`while (filter_index < this._filters.length)` loop (`app.js` lines
542-547), driven by a structural fuel counter so that the definition
reduces by computation: each pass pushes a sentinel (`-1`, `-1`, `false`)
to the voice slot `filter_index` and advances.  The loop body never
changes `filters`, so `filters - filter_index` fuel runs the loop to its
exit condition. -/
def pad_tail_go (st : TranscribeState) (filter_index : ℕ) :
    ℕ → TranscribeState
  | 0 => st
  | fuel + 1 =>
    if filter_index < st.filters then
      pad_tail_go
        { st with
          lower_frequencies := appendAt st.lower_frequencies filter_index (-1),
          upper_frequencies := appendAt st.upper_frequencies filter_index (-1),
          activated := appendAt st.activated filter_index false }
        (filter_index + 1) fuel
    else st

/-- The trailing `while (filter_index < this._filters.length)` loop
(`app.js` lines 542-547): push a sentinel (`-1`, `-1`, `false`) to every
voice slot not assigned a band at this time sample. -/
def pad_tail (st : TranscribeState) (filter_index : ℕ) : TranscribeState :=
  pad_tail_go st filter_index (st.filters - filter_index)

/-- One iteration of the time loop (`app.js` lines 498-548): walk the
discovered bands with `filter_index` starting at `0`, pad the remaining
voice slots with sentinels, and increment `counter`. -/
def transcribe_step (bands : List (ℚ × ℚ)) (st : TranscribeState) :
    TranscribeState :=
  let folded := bands.foldl
    (fun acc band => (apply_band acc.1 acc.2 band, acc.2 + 1)) (st, 0);
  let padded := pad_tail folded.1 folded.2;
  { padded with counter := padded.counter + 1 }

/-- The full time loop of `FillAudioProcessor.transcribe_user_shape`
(`app.js` lines 498-549), before the gap-fill passes. -/
def transcribe_sweep (shape : List CartesianPoint) (nl : ℚ → ℚ)
    (cfg : TranscribeSettings) : TranscribeState :=
  (time_samples cfg.rate).foldl
    (fun st time_stamp =>
      transcribe_step (sample_bands shape nl (get_caret_position cfg time_stamp)) st)
    initial_state

/-- One row of `FillAudioProcessor.fill_gaps` (`app.js` lines 479-490):
scan from the last index backward; a non-sentinel entry updates
`last_non_zero`, a sentinel entry is overwritten with the current
`last_non_zero`.  The recursion processes the tail (the higher indices)
first, returning the updated row and the final `last_non_zero` value. -/
def fill_row : ℚ → List ℚ → List ℚ × ℚ
  | last_non_zero, [] => ([], last_non_zero)
  | last_non_zero, x :: rest =>
    let tail_result := fill_row last_non_zero rest;
    if x ≠ -1 then (x :: tail_result.1, x)
    else (tail_result.2 :: tail_result.1, tail_result.2)

/-- `FillAudioProcessor.fill_gaps(array, last_non_zero)` (`app.js` lines
479-490).  Row `index1` only reads and writes `last_non_zero[index1]`, so
the rows are processed independently; the call sites keep both lists at
the same length (`this._filters.length`). -/
def fill_gaps (array : List (List ℚ)) (last_non_zero : List ℚ) :
    List (List ℚ) :=
  (array.zip last_non_zero).map (fun p => (fill_row p.2 p.1).1)

/-- `FillAudioProcessor.transcribe_user_shape(shape)` (`app.js` lines
491-553): the sweep followed by the two gap-fill passes on the frequency
curves (`activated` is not gap-filled). -/
def transcribe_user_shape (shape : List CartesianPoint) (nl : ℚ → ℚ)
    (cfg : TranscribeSettings) : TranscribeState :=
  let swept := transcribe_sweep shape nl cfg;
  { swept with
    lower_frequencies := fill_gaps swept.lower_frequencies swept.last_nonzero_lower,
    upper_frequencies := fill_gaps swept.upper_frequencies swept.last_nonzero_upper }

/-- The maximum number of simultaneously active inside-bands over all time
samples of a sweep. -/
def max_band_count (shape : List CartesianPoint) (nl : ℚ → ℚ)
    (cfg : TranscribeSettings) : ℕ :=
  (time_samples cfg.rate).foldl
    (fun acc time_stamp =>
      max acc (sample_bands shape nl (get_caret_position cfg time_stamp)).length)
    0

/-- Claim C3 (amended): at every time sample, the sweep-line intersections
are sorted by descending `y` — which, since canvas `y` grows downward,
places the *bottom* of the canvas first — before consecutive pairs are
tested as bands: the sorted list is pairwise descending in `y`, is a
permutation of the raw intersection list, and is exactly the list whose
consecutive pairs the band test consumes. -/
theorem sorted_intersections_spec (shape : List CartesianPoint)
    (nl : ℚ → ℚ) (caret_position : ℚ) :
    (sorted_intersections shape caret_position).Pairwise
        (fun a b => b.y ≤ a.y)
      ∧ (sorted_intersections shape caret_position).Perm
          (find_intersections shape ⟨1, 0, -caret_position⟩)
      ∧ sample_bands shape nl caret_position
          = (consecutive_pairs (sorted_intersections shape caret_position)).filterMap
              (band_of shape nl) := by
  haveI : IsTotal CartesianPoint y_desc_rel := ⟨fun a b => le_total b.y a.y⟩
  haveI : IsTrans CartesianPoint y_desc_rel :=
    ⟨fun _ _ _ hab hbc => le_trans hbc hab⟩
  exact ⟨List.sorted_insertionSort y_desc_rel _, List.perm_insertionSort y_desc_rel _,
    rfl⟩

/-- Claim C3, counterexample to the claim as stated: for an axis-aligned
square and the sweep line `x = 200`, the sorted intersection list starts
with the point of canvas `y = 300` and ends with the point of `y = 100`.
Canvas `y` grows downward, so the first element is the bottommost
intersection, not the top of the canvas. -/
theorem sorted_intersections_bottom_first :
    sorted_intersections
        [CartesianPoint.mk 100 100, CartesianPoint.mk 300 100,
          CartesianPoint.mk 300 300, CartesianPoint.mk 100 300] 200
      = [CartesianPoint.mk 200 300, CartesianPoint.mk 200 100]
      ∧ (100 : ℚ) < 300 := by
  constructor
  · norm_num [sorted_intersections, find_intersections,
      find_weighted_intersections, cyclePairs, List.filterMap_cons,
      edge_intersection, line_equation, cramer_x, cramer_y, cramer_den,
      List.insertionSort, List.orderedInsert, y_desc_rel]
  · norm_num

/-- The `FillAudioProcessor` state relevant to the render state machine:
the allocated voice list (modelled by its size), the `_rendering` flag and
`_rendering_start` (`app.js` lines 430-440). -/
structure FillProcessorState where
  filters : ℕ
  rendering : Bool
  rendering_start : ℚ
deriving DecidableEq, Repr

/-- `FillAudioProcessor.render()` (`app.js` lines 554-571): detach and
discard the voices, transcribe (which re-allocates voices on demand),
automate the curves, start the noise source, set `_rendering = true` and
`_rendering_start = currentTime`.  There is no re-entrancy check in this
method. -/
def fill_processor_render (shape : List CartesianPoint) (nl : ℚ → ℚ)
    (cfg : TranscribeSettings) (current_time : ℚ)
    (_st : FillProcessorState) : FillProcessorState :=
  { filters := (transcribe_user_shape shape nl cfg).filters,
    rendering := true,
    rendering_start := current_time }

/-- `Director.render()` (`app.js` lines 796-801): early return when
`this.rendering` is already true, otherwise delegate to the audio
processor. -/
def director_render (shape : List CartesianPoint) (nl : ℚ → ℚ)
    (cfg : TranscribeSettings) (current_time : ℚ)
    (st : FillProcessorState) : FillProcessorState :=
  if st.rendering then st else fill_processor_render shape nl cfg current_time st

/-- Claim C9 (amended): while a render is in progress, a second `render()`
call issued through the Director is a no-op that leaves the processor state
unchanged — the guard is `Director.render`'s early return, not a check in
the Audio Processor. -/
theorem director_render_noop (shape : List CartesianPoint) (nl : ℚ → ℚ)
    (cfg : TranscribeSettings) (current_time : ℚ) (st : FillProcessorState)
    (h : st.rendering = true) :
    director_render shape nl cfg current_time st = st := by
  simp [director_render, h]

theorem director_render_noop_witness :
    (FillProcessorState.mk 5 true 0).rendering = true
      ∧ director_render [] (fun y => y) (TranscribeSettings.mk 0 0 0) 1
          (FillProcessorState.mk 5 true 0)
        = FillProcessorState.mk 5 true 0 :=
  ⟨rfl, director_render_noop [] (fun y => y) (TranscribeSettings.mk 0 0 0) 1
    (FillProcessorState.mk 5 true 0) rfl⟩

/-- Claim C9, counterexample to the claim as stated: the Audio Processor
does not guard its own re-entrancy.  Invoking
`FillAudioProcessor.render()` directly on a state with `rendering = true`
re-runs the transcription and mutates the state (here the voice count
drops to 0 and the start time changes), so the no-op behaviour comes from
the Director alone. -/
theorem fill_processor_render_reenters :
    (FillProcessorState.mk 5 true 0).rendering = true
      ∧ fill_processor_render [] (fun y => y) (TranscribeSettings.mk 0 0 0) 1
          (FillProcessorState.mk 5 true 0)
        ≠ FillProcessorState.mk 5 true 0 := by
  constructor
  · rfl
  · norm_num [fill_processor_render, transcribe_user_shape, transcribe_sweep,
      time_samples, num_samples, get_caret_position, sample_bands,
      sorted_intersections, find_intersections, find_weighted_intersections,
      cyclePairs, consecutive_pairs, transcribe_step, pad_tail, pad_tail_go,
      fill_gaps, initial_state, apply_band, List.insertionSort, band_of,
      List.filterMap_cons]

/-- Increment the entry at an index of a list of numbers (the shape of row
lengths under `appendAt`). -/
def incAt : List ℕ → ℕ → List ℕ
  | [], _ => []
  | n :: rest, 0 => (n + 1) :: rest
  | n :: rest, i + 1 => n :: incAt rest i

theorem appendAt_map_length {α : Type} (v : α) :
    ∀ (rows : List (List α)) (i : ℕ),
      (appendAt rows i v).map List.length = incAt (rows.map List.length) i := by
  intro rows
  induction rows with
  | nil => intro i; rfl
  | cons row rest ih =>
    intro i
    cases i with
    | zero => simp [appendAt, incAt]
    | succ i => simp [appendAt, incAt, ih]

theorem setAt_length :
    ∀ (l : List ℚ) (i : ℕ) (v : ℚ), (setAt l i v).length = l.length := by
  intro l
  induction l with
  | nil => intro i v; rfl
  | cons x rest ih =>
    intro i v
    cases i with
    | zero => rfl
    | succ i => simp [setAt, ih]

theorem incAt_append_rep (c : ℕ) :
    ∀ (fi m : ℕ), fi < m →
      incAt (List.replicate fi (c + 1) ++ List.replicate (m - fi) c) fi
        = List.replicate (fi + 1) (c + 1) ++ List.replicate (m - (fi + 1)) c := by
  intro fi
  induction fi with
  | zero =>
    intro m hm
    obtain ⟨k, rfl⟩ : ∃ k, m = k + 1 := ⟨m - 1, by omega⟩
    simp [incAt, List.replicate_succ]
  | succ fi ih =>
    intro m hm
    obtain ⟨k, rfl⟩ : ∃ k, m = k + 1 := ⟨m - 1, by omega⟩
    have hk : fi < k := by omega
    have hsub : k + 1 - (fi + 1) = k - fi := by omega
    have hsub2 : k + 1 - (fi + 1 + 1) = k - (fi + 1) := by omega
    rw [hsub, hsub2, List.replicate_succ (c + 1) fi, List.cons_append]
    rw [show List.replicate (fi + 1 + 1) (c + 1)
        = (c + 1) :: List.replicate (fi + 1) (c + 1) from rfl]
    rw [List.cons_append]
    show (c + 1) :: incAt (List.replicate fi (c + 1) ++ List.replicate (k - fi) c) fi
        = (c + 1) :: (List.replicate (fi + 1) (c + 1) ++ List.replicate (k - (fi + 1)) c)
    rw [ih k hk]

theorem incAt_append_single (c : ℕ) :
    ∀ fi, incAt (List.replicate fi (c + 1) ++ [c]) fi
      = List.replicate (fi + 1) (c + 1) := by
  intro fi
  induction fi with
  | zero => rfl
  | succ fi ih =>
    rw [List.replicate_succ (c + 1) fi, List.cons_append]
    rw [show List.replicate (fi + 1 + 1) (c + 1)
        = (c + 1) :: List.replicate (fi + 1) (c + 1) from rfl]
    show (c + 1) :: incAt (List.replicate fi (c + 1) ++ [c]) fi
        = (c + 1) :: List.replicate (fi + 1) (c + 1)
    rw [ih]

theorem appendAt_rep_length {α : Type} (rows : List (List α)) (fi m c : ℕ)
    (v : α) (hlt : fi < m)
    (h : rows.map List.length
      = List.replicate fi (c + 1) ++ List.replicate (m - fi) c) :
    (appendAt rows fi v).map List.length
      = List.replicate (fi + 1) (c + 1) ++ List.replicate (m - (fi + 1)) c := by
  rw [appendAt_map_length, h, incAt_append_rep c fi m hlt]

theorem appendAt_snoc_length {α : Type} (rows : List (List α)) (fi c : ℕ)
    (v : α) (w : List α)
    (h : rows.map List.length = List.replicate fi (c + 1)) (hw : w.length = c) :
    (appendAt (rows ++ [w]) fi v).map List.length
      = List.replicate (fi + 1) (c + 1) := by
  rw [appendAt_map_length, List.map_append, h]
  simp only [List.map_cons, List.map_nil, hw]
  exact incAt_append_single c fi

/-- The length bookkeeping of one partially processed time sample:
`filter_index` rows already received this sample's entry (length
`counter + 1`), the remaining rows have not (length `counter`), the
`last_nonzero` arrays track the voice count, and `filter_index` never
exceeds the voice count. -/
def RowsInv (st : TranscribeState) (fi c : ℕ) : Prop :=
  st.lower_frequencies.map List.length
      = List.replicate fi (c + 1) ++ List.replicate (st.filters - fi) c
    ∧ st.upper_frequencies.map List.length
      = List.replicate fi (c + 1) ++ List.replicate (st.filters - fi) c
    ∧ st.activated.map List.length
      = List.replicate fi (c + 1) ++ List.replicate (st.filters - fi) c
    ∧ st.last_nonzero_lower.length = st.filters
    ∧ st.last_nonzero_upper.length = st.filters
    ∧ fi ≤ st.filters
    ∧ st.counter = c

theorem apply_band_inv (st : TranscribeState) (fi c : ℕ) (band : ℚ × ℚ)
    (h : RowsInv st fi c) :
    RowsInv (apply_band st fi band) (fi + 1) c
      ∧ (apply_band st fi band).filters = max st.filters (fi + 1) := by
  unfold RowsInv at h
  obtain ⟨hl, hu, ha, hll, hlu, hfi, hc⟩ := h
  unfold apply_band RowsInv
  dsimp only
  split_ifs with hcomp
  · have hzero : st.filters - fi = 0 := by omega
    have hone : fi - st.filters + 1 = 1 := by omega
    rw [hzero] at hl hu ha
    simp only [List.replicate_zero, List.append_nil] at hl hu ha
    rw [hone]
    refine ⟨⟨?_, ?_, ?_, ?_, ?_, ?_, ?_⟩, ?_⟩
    · simp only [List.replicate_one]
      rw [appendAt_snoc_length _ _ _ _ _ hl (by simp [hc])]
      have h0 : st.filters + 1 - (fi + 1) = 0 := by omega
      simp [h0]
    · simp only [List.replicate_one]
      rw [appendAt_snoc_length _ _ _ _ _ hu (by simp [hc])]
      have h0 : st.filters + 1 - (fi + 1) = 0 := by omega
      simp [h0]
    · simp only [List.replicate_one]
      rw [appendAt_snoc_length _ _ _ _ _ ha (by simp [hc])]
      have h0 : st.filters + 1 - (fi + 1) = 0 := by omega
      simp [h0]
    · simp [setAt_length, hll]
    · simp [setAt_length, hlu]
    · show fi + 1 ≤ st.filters + 1
      omega
    · exact hc
    · show st.filters + 1 = max st.filters (fi + 1)
      omega
  · have hlt : fi < st.filters := by omega
    refine ⟨⟨?_, ?_, ?_, ?_, ?_, ?_, ?_⟩, ?_⟩
    · exact appendAt_rep_length _ _ _ _ _ hlt hl
    · exact appendAt_rep_length _ _ _ _ _ hlt hu
    · exact appendAt_rep_length _ _ _ _ _ hlt ha
    · simp [setAt_length, hll]
    · simp [setAt_length, hlu]
    · show fi + 1 ≤ st.filters
      omega
    · exact hc
    · show st.filters = max st.filters (fi + 1)
      omega

theorem foldl_apply_band_inv :
    ∀ (bands : List (ℚ × ℚ)) (st : TranscribeState) (fi c : ℕ),
      RowsInv st fi c →
      RowsInv (bands.foldl
          (fun acc band => (apply_band acc.1 acc.2 band, acc.2 + 1)) (st, fi)).1
          (fi + bands.length) c
        ∧ (bands.foldl
            (fun acc band => (apply_band acc.1 acc.2 band, acc.2 + 1)) (st, fi)).2
          = fi + bands.length
        ∧ (bands.foldl
            (fun acc band => (apply_band acc.1 acc.2 band, acc.2 + 1)) (st, fi)).1.filters
          = max st.filters (fi + bands.length) := by
  intro bands
  induction bands with
  | nil =>
    intro st fi c h
    refine ⟨by simpa using h, by simp, ?_⟩
    have hfi : fi ≤ st.filters := h.2.2.2.2.2.1
    simp only [List.foldl_nil, List.length_nil, Nat.add_zero]
    omega
  | cons band rest ih =>
    intro st fi c h
    obtain ⟨h1, h2⟩ := apply_band_inv st fi c band h
    obtain ⟨ih1, ih2, ih3⟩ := ih (apply_band st fi band) (fi + 1) c h1
    have harith : fi + (rest.length + 1) = fi + 1 + rest.length := by omega
    simp only [List.foldl_cons, List.length_cons]
    rw [harith]
    refine ⟨ih1, ih2, ?_⟩
    rw [ih3, h2]
    omega

theorem pad_tail_go_spec :
    ∀ (fuel : ℕ) (st : TranscribeState) (fi c : ℕ),
      st.filters - fi = fuel → RowsInv st fi c →
      RowsInv (pad_tail_go st fi fuel) st.filters c
        ∧ (pad_tail_go st fi fuel).filters = st.filters
        ∧ (pad_tail_go st fi fuel).counter = st.counter
        ∧ (pad_tail_go st fi fuel).last_nonzero_lower = st.last_nonzero_lower
        ∧ (pad_tail_go st fi fuel).last_nonzero_upper = st.last_nonzero_upper := by
  intro fuel
  induction fuel with
  | zero =>
    intro st fi c hfuel h
    have hfi : fi ≤ st.filters := h.2.2.2.2.2.1
    have hfieq : fi = st.filters := by omega
    exact ⟨hfieq ▸ h, rfl, rfl, rfl, rfl⟩
  | succ fuel ih =>
    intro st fi c hfuel h
    unfold RowsInv at h
    obtain ⟨hl, hu, ha, hll, hlu, hfi, hc⟩ := h
    have hlt : fi < st.filters := by omega
    unfold pad_tail_go
    rw [if_pos hlt]
    have h2 : RowsInv
        { st with
          lower_frequencies := appendAt st.lower_frequencies fi (-1),
          upper_frequencies := appendAt st.upper_frequencies fi (-1),
          activated := appendAt st.activated fi false } (fi + 1) c := by
      unfold RowsInv
      refine ⟨?_, ?_, ?_, hll, hlu, ?_, hc⟩
      · exact appendAt_rep_length _ _ _ _ _ hlt hl
      · exact appendAt_rep_length _ _ _ _ _ hlt hu
      · exact appendAt_rep_length _ _ _ _ _ hlt ha
      · show fi + 1 ≤ st.filters
        omega
    exact ih _ (fi + 1) c (by simpa using by omega) h2

theorem rows_inv_counter_bump (st2 : TranscribeState) (c : ℕ)
    (h : RowsInv st2 st2.filters c) :
    RowsInv { st2 with counter := st2.counter + 1 } 0 (c + 1) := by
  unfold RowsInv at h ⊢
  obtain ⟨hl, hu, ha, hll, hlu, _, hc⟩ := h
  have hz : st2.filters - st2.filters = 0 := by omega
  rw [hz] at hl hu ha
  simp only [List.replicate_zero, List.append_nil] at hl hu ha
  refine ⟨?_, ?_, ?_, hll, hlu, by omega, by simp [hc]⟩
  · show st2.lower_frequencies.map List.length = _
    simpa using hl
  · show st2.upper_frequencies.map List.length = _
    simpa using hu
  · show st2.activated.map List.length = _
    simpa using ha

theorem transcribe_step_inv (bands : List (ℚ × ℚ)) (st : TranscribeState)
    (c : ℕ) (h : RowsInv st 0 c) :
    RowsInv (transcribe_step bands st) 0 (c + 1)
      ∧ (transcribe_step bands st).filters = max st.filters bands.length := by
  obtain ⟨hinv, hsnd, hfil⟩ := foldl_apply_band_inv bands st 0 c h
  rw [Nat.zero_add] at hinv hsnd hfil
  unfold transcribe_step
  dsimp only
  rw [hsnd]
  unfold pad_tail
  obtain ⟨pinv, pfil, pcnt, _, _⟩ :=
    pad_tail_go_spec _ _ bands.length c rfl hinv
  have pinv2 : RowsInv
      (pad_tail_go (bands.foldl
          (fun acc band => (apply_band acc.1 acc.2 band, acc.2 + 1)) (st, 0)).1
        bands.length
        ((bands.foldl
            (fun acc band => (apply_band acc.1 acc.2 band, acc.2 + 1)) (st, 0)).1.filters
          - bands.length))
      (pad_tail_go (bands.foldl
          (fun acc band => (apply_band acc.1 acc.2 band, acc.2 + 1)) (st, 0)).1
        bands.length
        ((bands.foldl
            (fun acc band => (apply_band acc.1 acc.2 band, acc.2 + 1)) (st, 0)).1.filters
          - bands.length)).filters c := by
    rw [pfil]
    exact pinv
  have hbump := rows_inv_counter_bump _ c pinv2
  have hcnt : (pad_tail_go (bands.foldl
      (fun acc band => (apply_band acc.1 acc.2 band, acc.2 + 1)) (st, 0)).1
      bands.length
      ((bands.foldl
          (fun acc band => (apply_band acc.1 acc.2 band, acc.2 + 1)) (st, 0)).1.filters
        - bands.length)).counter + 1 = c + 1 := by
    rw [pcnt, hinv.2.2.2.2.2.2]
  constructor
  · unfold RowsInv at hbump ⊢
    obtain ⟨bl, bu, ba, bll, blu, bfi, _⟩ := hbump
    exact ⟨bl, bu, ba, bll, blu, bfi, hcnt⟩
  · show (pad_tail_go _ bands.length _).filters = max st.filters bands.length
    rw [pfil, hfil]

theorem transcribe_sweep_inv (shape : List CartesianPoint) (nl : ℚ → ℚ)
    (cfg : TranscribeSettings) :
    RowsInv (transcribe_sweep shape nl cfg) 0 (time_samples cfg.rate).length
      ∧ (transcribe_sweep shape nl cfg).filters = max_band_count shape nl cfg := by
  unfold transcribe_sweep max_band_count
  have main : ∀ (ts : List ℚ) (st : TranscribeState) (c : ℕ),
      RowsInv st 0 c →
      RowsInv (ts.foldl
          (fun st time_stamp =>
            transcribe_step
              (sample_bands shape nl (get_caret_position cfg time_stamp)) st) st)
          0 (c + ts.length)
        ∧ (ts.foldl
            (fun st time_stamp =>
              transcribe_step
                (sample_bands shape nl (get_caret_position cfg time_stamp)) st) st).filters
          = ts.foldl
              (fun acc time_stamp =>
                max acc
                  (sample_bands shape nl (get_caret_position cfg time_stamp)).length)
              st.filters := by
    intro ts
    induction ts with
    | nil =>
      intro st c h
      simp only [List.foldl_nil, List.length_nil, Nat.add_zero]
      exact And.intro h trivial
    | cons t rest ih =>
      intro st c h
      obtain ⟨h1, h2⟩ := transcribe_step_inv
        (sample_bands shape nl (get_caret_position cfg t)) st c h
      obtain ⟨ih1, ih2⟩ := ih _ (c + 1) h1
      simp only [List.foldl_cons, List.length_cons]
      have harith : c + (rest.length + 1) = c + 1 + rest.length := by omega
      rw [harith]
      exact ⟨ih1, by rw [ih2, h2]⟩
  have hinit : RowsInv initial_state 0 0 := by
    unfold RowsInv initial_state
    simp
  simpa using main (time_samples cfg.rate) initial_state 0 hinit

theorem fill_row_length :
    ∀ (last_non_zero : ℚ) (l : List ℚ),
      ((fill_row last_non_zero l).1).length = l.length := by
  intro last_non_zero l
  induction l with
  | nil => rfl
  | cons x rest ih =>
    unfold fill_row
    dsimp only
    split_ifs with h
    · simpa using ih
    · simpa using ih

theorem fill_gaps_length (array : List (List ℚ)) (last_non_zero : List ℚ)
    (h : array.length = last_non_zero.length) :
    (fill_gaps array last_non_zero).length = array.length := by
  simp [fill_gaps, h]

theorem fill_gaps_row_length (array : List (List ℚ)) (last_non_zero : List ℚ)
    (row : List ℚ) (hrow : row ∈ fill_gaps array last_non_zero) :
    ∃ r ∈ array, row.length = r.length := by
  unfold fill_gaps at hrow
  obtain ⟨p, hp, rfl⟩ := List.mem_map.mp hrow
  exact ⟨p.1, (List.of_mem_zip hp).1, fill_row_length p.2 p.1⟩

theorem row_length_of_map_replicate {α : Type} {rows : List (List α)}
    {m c : ℕ} (h : rows.map List.length = List.replicate m c)
    {row : List α} (hrow : row ∈ rows) : row.length = c := by
  have : row.length ∈ rows.map List.length := List.mem_map_of_mem List.length hrow
  rw [h] at this
  exact List.eq_of_mem_replicate this

/-- Claim C1: in a Fill-mode render pass (voice list cleared before
transcription), `transcribe_user_shape` allocates exactly as many filter
voices as the maximum number of simultaneously active inside-bands over
all time samples, and the three per-voice curve arrays all have one row
per voice, each row with one entry per time sample. -/
theorem transcribe_voice_count (shape : List CartesianPoint) (nl : ℚ → ℚ)
    (cfg : TranscribeSettings) :
    (transcribe_user_shape shape nl cfg).filters = max_band_count shape nl cfg
      ∧ (transcribe_user_shape shape nl cfg).lower_frequencies.length
          = (transcribe_user_shape shape nl cfg).filters
      ∧ (transcribe_user_shape shape nl cfg).upper_frequencies.length
          = (transcribe_user_shape shape nl cfg).filters
      ∧ (transcribe_user_shape shape nl cfg).activated.length
          = (transcribe_user_shape shape nl cfg).filters
      ∧ (∀ row ∈ (transcribe_user_shape shape nl cfg).lower_frequencies,
          row.length = (time_samples cfg.rate).length)
      ∧ (∀ row ∈ (transcribe_user_shape shape nl cfg).upper_frequencies,
          row.length = (time_samples cfg.rate).length)
      ∧ (∀ row ∈ (transcribe_user_shape shape nl cfg).activated,
          row.length = (time_samples cfg.rate).length) := by
  obtain ⟨hinv, hfil⟩ := transcribe_sweep_inv shape nl cfg
  unfold RowsInv at hinv
  obtain ⟨hl, hu, ha, hll, hlu, _, _⟩ := hinv
  set swept := transcribe_sweep shape nl cfg with hswept
  have hsub : swept.filters - 0 = swept.filters := by omega
  rw [hsub] at hl hu ha
  simp only [List.replicate_zero, List.nil_append] at hl hu ha
  have hllen : swept.lower_frequencies.length = swept.filters := by
    have := congrArg List.length hl
    simpa using this
  have hulen : swept.upper_frequencies.length = swept.filters := by
    have := congrArg List.length hu
    simpa using this
  have halen : swept.activated.length = swept.filters := by
    have := congrArg List.length ha
    simpa using this
  unfold transcribe_user_shape
  rw [← hswept]
  dsimp only
  refine ⟨hfil, ?_, ?_, halen, ?_, ?_, ?_⟩
  · rw [fill_gaps_length _ _ (by rw [hllen, hll]), hllen]
  · rw [fill_gaps_length _ _ (by rw [hulen, hlu]), hulen]
  · intro row hrow
    obtain ⟨r, hr, hlen⟩ := fill_gaps_row_length _ _ row hrow
    rw [hlen]
    exact row_length_of_map_replicate hl hr
  · intro row hrow
    obtain ⟨r, hr, hlen⟩ := fill_gaps_row_length _ _ row hrow
    rw [hlen]
    exact row_length_of_map_replicate hu hr
  · intro row hrow
    exact row_length_of_map_replicate ha hrow

/-- Modelled from the spec's words for claim C2 (refinement counterpart of
`fill_row`): the gap-filled value at index `j` is the original entry when
it is not the sentinel, otherwise the nearest non-sentinel entry at a
higher index ("the most recent non-sentinel value seen during the backward
scan"), falling back to the per-voice last-non-sentinel value recorded
during transcription when the sentinel is trailing. -/
def spec_gap_fill (row : List ℚ) (last_value : ℚ) (j : ℕ) : ℚ :=
  if row.getD j 0 ≠ -1 then row.getD j 0
  else ((row.drop (j + 1)).find? (fun v => v != -1)).getD last_value

theorem fill_row_snd (init : ℚ) :
    ∀ l : List ℚ, (fill_row init l).2 = (l.find? (fun v => v != -1)).getD init := by
  intro l
  induction l with
  | nil => rfl
  | cons x rest ih =>
    unfold fill_row
    dsimp only
    split_ifs with h
    · rw [List.find?_cons_of_pos _ (by simpa using h)]
      rfl
    · rw [List.find?_cons_of_neg _ (by simpa using h)]
      exact ih

theorem fill_row_getD (init : ℚ) :
    ∀ (l : List ℚ) (j : ℕ),
      ((fill_row init l).1).getD j 0 = spec_gap_fill l init j := by
  intro l
  induction l with
  | nil =>
    intro j
    unfold fill_row spec_gap_fill
    norm_num
  | cons x rest ih =>
    intro j
    cases j with
    | zero =>
      unfold fill_row spec_gap_fill
      dsimp only
      simp only [List.getD_cons_zero, List.drop_succ_cons, List.drop_zero]
      split_ifs with h
      · simp
      · simpa using fill_row_snd init rest
    | succ j =>
      have hrec := ih j
      unfold fill_row
      dsimp only
      have hspec : spec_gap_fill (x :: rest) init (j + 1) = spec_gap_fill rest init j := by
        unfold spec_gap_fill
        rw [List.getD_cons_succ]
        rfl
      rw [hspec]
      split_ifs with h
      · simpa using hrec
      · simpa using hrec

theorem fill_gaps_getD :
    ∀ (array : List (List ℚ)) (last_non_zero : List ℚ),
      array.length = last_non_zero.length →
      ∀ i, (fill_gaps array last_non_zero).getD i []
        = (fill_row (last_non_zero.getD i 0) (array.getD i [])).1 := by
  intro array
  induction array with
  | nil =>
    intro last_non_zero h i
    have hnil : last_non_zero = [] := by
      cases last_non_zero with
      | nil => rfl
      | cons a b => simp at h
    subst hnil
    simp [fill_gaps, fill_row]
  | cons row rest ih =>
    intro last_non_zero h i
    cases last_non_zero with
    | nil => simp at h
    | cons init lrest =>
      cases i with
      | zero => simp [fill_gaps]
      | succ i =>
        have h2 : rest.length = lrest.length := by simpa using h
        simpa [fill_gaps] using ih lrest h2 i

theorem fill_row_ne_sentinel (init : ℚ) (hinit : init ≠ -1) :
    ∀ l : List ℚ,
      (∀ v ∈ (fill_row init l).1, v ≠ -1) ∧ (fill_row init l).2 ≠ -1 := by
  intro l
  induction l with
  | nil => exact ⟨by simp [fill_row], hinit⟩
  | cons x rest ih =>
    unfold fill_row
    dsimp only
    split_ifs with h
    · refine ⟨?_, h⟩
      intro v hv
      rcases List.mem_cons.mp hv with rfl | hv2
      · exact h
      · exact ih.1 v hv2
    · refine ⟨?_, ih.2⟩
      intro v hv
      rcases List.mem_cons.mp hv with rfl | hv2
      · exact ih.2
      · exact ih.1 v hv2

theorem setAt_mem :
    ∀ (l : List ℚ) (i : ℕ) (x v : ℚ), v ∈ setAt l i x → v = x ∨ v ∈ l := by
  intro l
  induction l with
  | nil => intro i x v hv; simp [setAt] at hv
  | cons a rest ih =>
    intro i x v hv
    cases i with
    | zero =>
      rcases List.mem_cons.mp hv with rfl | hv2
      · exact Or.inl rfl
      · exact Or.inr (List.mem_cons_of_mem a hv2)
    | succ i =>
      rcases List.mem_cons.mp hv with h1 | hv2
      · rw [h1]
        exact Or.inr (List.mem_cons_self _ _)
      · rcases ih i x v hv2 with h1 | h1
        · exact Or.inl h1
        · exact Or.inr (List.mem_cons_of_mem a h1)

theorem sample_bands_ne_sentinel (shape : List CartesianPoint) (nl : ℚ → ℚ)
    (caret_position : ℚ) (hnl : ∀ y, nl y ≠ -1) :
    ∀ b ∈ sample_bands shape nl caret_position, b.1 ≠ -1 ∧ b.2 ≠ -1 := by
  intro b hb
  unfold sample_bands at hb
  obtain ⟨pair, _, hsome⟩ := List.mem_filterMap.mp hb
  unfold band_of at hsome
  split_ifs at hsome with h
  obtain rfl : (nl pair.1.y, nl pair.2.y) = b := Option.some_injective _ hsome
  exact ⟨hnl _, hnl _⟩

/-- No entry of the `last_nonzero` arrays is the sentinel. -/
def LastsNe (st : TranscribeState) : Prop :=
  (∀ v ∈ st.last_nonzero_lower, v ≠ -1) ∧ (∀ v ∈ st.last_nonzero_upper, v ≠ -1)

theorem apply_band_lasts (st : TranscribeState) (fi : ℕ) (band : ℚ × ℚ)
    (hb1 : band.1 ≠ -1) (hb2 : band.2 ≠ -1) (h : LastsNe st) :
    LastsNe (apply_band st fi band) := by
  obtain ⟨h1, h2⟩ := h
  unfold apply_band LastsNe
  dsimp only
  split_ifs with hcomp
  · constructor
    · intro v hv
      rcases setAt_mem _ _ _ _ hv with rfl | hv2
      · exact hb1
      · rcases List.mem_append.mp hv2 with h3 | h3
        · exact h1 v h3
        · rw [List.eq_of_mem_replicate h3]
          norm_num
    · intro v hv
      rcases setAt_mem _ _ _ _ hv with rfl | hv2
      · exact hb2
      · rcases List.mem_append.mp hv2 with h3 | h3
        · exact h2 v h3
        · rw [List.eq_of_mem_replicate h3]
          norm_num
  · constructor
    · intro v hv
      rcases setAt_mem _ _ _ _ hv with rfl | hv2
      · exact hb1
      · exact h1 v hv2
    · intro v hv
      rcases setAt_mem _ _ _ _ hv with rfl | hv2
      · exact hb2
      · exact h2 v hv2

theorem pad_tail_go_lasts :
    ∀ (fuel : ℕ) (st : TranscribeState) (fi : ℕ),
      (pad_tail_go st fi fuel).last_nonzero_lower = st.last_nonzero_lower
        ∧ (pad_tail_go st fi fuel).last_nonzero_upper = st.last_nonzero_upper := by
  intro fuel
  induction fuel with
  | zero => intro st fi; exact ⟨rfl, rfl⟩
  | succ fuel ih =>
    intro st fi
    unfold pad_tail_go
    split_ifs with h
    · exact ih _ (fi + 1)
    · exact ⟨rfl, rfl⟩

theorem foldl_apply_band_lasts :
    ∀ (bands : List (ℚ × ℚ)) (st : TranscribeState) (fi : ℕ),
      (∀ b ∈ bands, b.1 ≠ -1 ∧ b.2 ≠ -1) → LastsNe st →
      LastsNe (bands.foldl
        (fun acc band => (apply_band acc.1 acc.2 band, acc.2 + 1)) (st, fi)).1 := by
  intro bands
  induction bands with
  | nil => intro st fi _ h; exact h
  | cons band rest ih =>
    intro st fi hb h
    have hband := hb band (List.mem_cons_self band rest)
    simp only [List.foldl_cons]
    exact ih _ (fi + 1) (fun b hb2 => hb b (List.mem_cons_of_mem band hb2))
      (apply_band_lasts st fi band hband.1 hband.2 h)

theorem transcribe_step_lasts (bands : List (ℚ × ℚ)) (st : TranscribeState)
    (hb : ∀ b ∈ bands, b.1 ≠ -1 ∧ b.2 ≠ -1) (h : LastsNe st) :
    LastsNe (transcribe_step bands st) := by
  unfold transcribe_step
  dsimp only
  unfold pad_tail
  have hfold := foldl_apply_band_lasts bands st 0 hb h
  obtain ⟨hl, hu⟩ := pad_tail_go_lasts _ _ _
  unfold LastsNe
  constructor
  · show ∀ v ∈ (pad_tail_go _ _ _).last_nonzero_lower, v ≠ -1
    rw [hl]
    exact hfold.1
  · show ∀ v ∈ (pad_tail_go _ _ _).last_nonzero_upper, v ≠ -1
    rw [hu]
    exact hfold.2

theorem transcribe_sweep_lasts (shape : List CartesianPoint) (nl : ℚ → ℚ)
    (cfg : TranscribeSettings) (hnl : ∀ y, nl y ≠ -1) :
    LastsNe (transcribe_sweep shape nl cfg) := by
  unfold transcribe_sweep
  have main : ∀ (ts : List ℚ) (st : TranscribeState), LastsNe st →
      LastsNe (ts.foldl
        (fun st time_stamp =>
          transcribe_step
            (sample_bands shape nl (get_caret_position cfg time_stamp)) st) st) := by
    intro ts
    induction ts with
    | nil => intro st h; exact h
    | cons t rest ih =>
      intro st h
      simp only [List.foldl_cons]
      exact ih _ (transcribe_step_lasts _ st
        (sample_bands_ne_sentinel shape nl (get_caret_position cfg t) hnl) h)
  exact main _ initial_state ⟨by simp [initial_state], by simp [initial_state]⟩

/-- Claim C2: the gap-fill pass scans each frequency curve backward and
replaces every sentinel (`-1`) entry by the most recent non-sentinel value
seen during that backward scan (trailing sentinels are filled from the
per-voice `last_nonzero` value recorded during transcription), leaves every
non-sentinel entry unchanged, and does not modify the parallel `activated`
boolean curves; consequently — since `normalize_linear` never produces the
sentinel — no frequency curve handed to the audio subsystem contains a
sentinel. -/
theorem transcribe_gap_fill_spec (shape : List CartesianPoint) (nl : ℚ → ℚ)
    (cfg : TranscribeSettings) (hnl : ∀ y, nl y ≠ -1) :
    (transcribe_user_shape shape nl cfg).activated
        = (transcribe_sweep shape nl cfg).activated
      ∧ (∀ i j,
          (((transcribe_user_shape shape nl cfg).lower_frequencies.getD i []).getD j 0)
            = spec_gap_fill
                ((transcribe_sweep shape nl cfg).lower_frequencies.getD i [])
                ((transcribe_sweep shape nl cfg).last_nonzero_lower.getD i 0) j)
      ∧ (∀ i j,
          (((transcribe_user_shape shape nl cfg).upper_frequencies.getD i []).getD j 0)
            = spec_gap_fill
                ((transcribe_sweep shape nl cfg).upper_frequencies.getD i [])
                ((transcribe_sweep shape nl cfg).last_nonzero_upper.getD i 0) j)
      ∧ (∀ i j,
          (((transcribe_sweep shape nl cfg).lower_frequencies.getD i []).getD j 0) ≠ -1 →
          (((transcribe_user_shape shape nl cfg).lower_frequencies.getD i []).getD j 0)
            = (((transcribe_sweep shape nl cfg).lower_frequencies.getD i []).getD j 0))
      ∧ (∀ i j,
          (((transcribe_sweep shape nl cfg).upper_frequencies.getD i []).getD j 0) ≠ -1 →
          (((transcribe_user_shape shape nl cfg).upper_frequencies.getD i []).getD j 0)
            = (((transcribe_sweep shape nl cfg).upper_frequencies.getD i []).getD j 0))
      ∧ (∀ row ∈ (transcribe_user_shape shape nl cfg).lower_frequencies,
          ∀ v ∈ row, v ≠ -1)
      ∧ (∀ row ∈ (transcribe_user_shape shape nl cfg).upper_frequencies,
          ∀ v ∈ row, v ≠ -1) := by
  have hdef : transcribe_user_shape shape nl cfg
      = { transcribe_sweep shape nl cfg with
          lower_frequencies :=
            fill_gaps (transcribe_sweep shape nl cfg).lower_frequencies
              (transcribe_sweep shape nl cfg).last_nonzero_lower,
          upper_frequencies :=
            fill_gaps (transcribe_sweep shape nl cfg).upper_frequencies
              (transcribe_sweep shape nl cfg).last_nonzero_upper } := rfl
  obtain ⟨hinv, _⟩ := transcribe_sweep_inv shape nl cfg
  unfold RowsInv at hinv
  obtain ⟨hl, hu, _, hll, hlu, _, _⟩ := hinv
  have hsub : (transcribe_sweep shape nl cfg).filters - 0
      = (transcribe_sweep shape nl cfg).filters := by omega
  rw [hsub] at hl hu
  simp only [List.replicate_zero, List.nil_append] at hl hu
  have hlen_l : (transcribe_sweep shape nl cfg).lower_frequencies.length
      = (transcribe_sweep shape nl cfg).last_nonzero_lower.length := by
    have := congrArg List.length hl
    simpa [hll] using this
  have hlen_u : (transcribe_sweep shape nl cfg).upper_frequencies.length
      = (transcribe_sweep shape nl cfg).last_nonzero_upper.length := by
    have := congrArg List.length hu
    simpa [hlu] using this
  have hlasts := transcribe_sweep_lasts shape nl cfg hnl
  have hmain_l : ∀ i j,
      (((transcribe_user_shape shape nl cfg).lower_frequencies.getD i []).getD j 0)
        = spec_gap_fill
            ((transcribe_sweep shape nl cfg).lower_frequencies.getD i [])
            ((transcribe_sweep shape nl cfg).last_nonzero_lower.getD i 0) j := by
    intro i j
    rw [hdef]
    dsimp only
    rw [fill_gaps_getD _ _ hlen_l i]
    exact fill_row_getD _ _ j
  have hmain_u : ∀ i j,
      (((transcribe_user_shape shape nl cfg).upper_frequencies.getD i []).getD j 0)
        = spec_gap_fill
            ((transcribe_sweep shape nl cfg).upper_frequencies.getD i [])
            ((transcribe_sweep shape nl cfg).last_nonzero_upper.getD i 0) j := by
    intro i j
    rw [hdef]
    dsimp only
    rw [fill_gaps_getD _ _ hlen_u i]
    exact fill_row_getD _ _ j
  refine ⟨by rw [hdef], hmain_l, hmain_u, ?_, ?_, ?_, ?_⟩
  · intro i j hne
    rw [hmain_l i j]
    unfold spec_gap_fill
    rw [if_pos hne]
  · intro i j hne
    rw [hmain_u i j]
    unfold spec_gap_fill
    rw [if_pos hne]
  · intro row hrow v hv
    rw [hdef] at hrow
    dsimp only at hrow
    unfold fill_gaps at hrow
    obtain ⟨p, hp, rfl⟩ := List.mem_map.mp hrow
    have hinit : p.2 ≠ -1 := hlasts.1 p.2 (List.of_mem_zip hp).2
    exact (fill_row_ne_sentinel p.2 hinit p.1).1 v hv
  · intro row hrow v hv
    rw [hdef] at hrow
    dsimp only at hrow
    unfold fill_gaps at hrow
    obtain ⟨p, hp, rfl⟩ := List.mem_map.mp hrow
    have hinit : p.2 ≠ -1 := hlasts.2 p.2 (List.of_mem_zip hp).2
    exact (fill_row_ne_sentinel p.2 hinit p.1).1 v hv

theorem transcribe_gap_fill_spec_witness :
    (∀ y : ℚ, (fun _ : ℚ => (2 : ℚ)) y ≠ -1)
      ∧ ((transcribe_user_shape [] (fun _ => 2) (TranscribeSettings.mk 0 0 0)).activated
            = (transcribe_sweep [] (fun _ => 2) (TranscribeSettings.mk 0 0 0)).activated
        ∧ (∀ i j,
            (((transcribe_user_shape [] (fun _ => 2)
                  (TranscribeSettings.mk 0 0 0)).lower_frequencies.getD i []).getD j 0)
              = spec_gap_fill
                  ((transcribe_sweep [] (fun _ => 2)
                      (TranscribeSettings.mk 0 0 0)).lower_frequencies.getD i [])
                  ((transcribe_sweep [] (fun _ => 2)
                      (TranscribeSettings.mk 0 0 0)).last_nonzero_lower.getD i 0) j)
        ∧ (∀ i j,
            (((transcribe_user_shape [] (fun _ => 2)
                  (TranscribeSettings.mk 0 0 0)).upper_frequencies.getD i []).getD j 0)
              = spec_gap_fill
                  ((transcribe_sweep [] (fun _ => 2)
                      (TranscribeSettings.mk 0 0 0)).upper_frequencies.getD i [])
                  ((transcribe_sweep [] (fun _ => 2)
                      (TranscribeSettings.mk 0 0 0)).last_nonzero_upper.getD i 0) j)
        ∧ (∀ i j,
            (((transcribe_sweep [] (fun _ => 2)
                  (TranscribeSettings.mk 0 0 0)).lower_frequencies.getD i []).getD j 0) ≠ -1 →
            (((transcribe_user_shape [] (fun _ => 2)
                  (TranscribeSettings.mk 0 0 0)).lower_frequencies.getD i []).getD j 0)
              = (((transcribe_sweep [] (fun _ => 2)
                  (TranscribeSettings.mk 0 0 0)).lower_frequencies.getD i []).getD j 0))
        ∧ (∀ i j,
            (((transcribe_sweep [] (fun _ => 2)
                  (TranscribeSettings.mk 0 0 0)).upper_frequencies.getD i []).getD j 0) ≠ -1 →
            (((transcribe_user_shape [] (fun _ => 2)
                  (TranscribeSettings.mk 0 0 0)).upper_frequencies.getD i []).getD j 0)
              = (((transcribe_sweep [] (fun _ => 2)
                  (TranscribeSettings.mk 0 0 0)).upper_frequencies.getD i []).getD j 0))
        ∧ (∀ row ∈ (transcribe_user_shape [] (fun _ => 2)
              (TranscribeSettings.mk 0 0 0)).lower_frequencies,
            ∀ v ∈ row, v ≠ -1)
        ∧ (∀ row ∈ (transcribe_user_shape [] (fun _ => 2)
              (TranscribeSettings.mk 0 0 0)).upper_frequencies,
            ∀ v ∈ row, v ≠ -1)) :=
  ⟨fun _ => by norm_num,
    transcribe_gap_fill_spec [] (fun _ => 2) (TranscribeSettings.mk 0 0 0)
      (fun _ => by norm_num)⟩

end SpectralPainting
